import Mathlib

/-!
# SuperKernel-6.0 identity core: a shallow embedding with proofs

This development embeds the identity/Merkle core of the repository in Lean 4
and proves (or refutes) the frozen specification claims about it.

Embedded modules:

* `src/identity/keccak.py` — a pure-Python Keccak-256 (permutation, sponge,
  padding).  Bytes are modelled as `List Nat` with values below 256, 64-bit
  lanes as `Nat` reduced modulo `2 ^ 64` where the source masks.
* `src/identity/merkle_identity.py` — identity records, canonical JSON
  serialization, leaf hashing, Merkle root/proof construction and proof
  verification with sorted-pair hashing, plus the hex helpers.

Python strings are modelled as lists of Unicode code points (`List Nat`),
since Python `str` values may contain lone surrogates that Lean `Char`
cannot represent.  Python exceptions are modelled with `Option` /
`MerkleResult`.
-/

namespace SuperKernel

/-! ## Keccak-f[1600] permutation (`src/identity/keccak.py`) -/

/-- Rotation offsets for the Rho step, indexed `[x][y]` as in the source. -/
def rhoOffsets : List (List Nat) :=
  [[0, 36, 3, 41, 18],
   [1, 44, 10, 45, 2],
   [62, 6, 43, 15, 61],
   [28, 55, 25, 21, 56],
   [27, 20, 39, 8, 14]]

/-- Round constants for the Iota step, in the source's order (the
`_ROUND_CONSTANTS` table of `keccak.py`, four constants per row). -/
def roundConstants : List Nat :=
  [0x0000000000000001, 0x0000000000008082, 0x800000000000808a, 0x8000000080008000]
  ++ [0x000000000000808b, 0x0000000080000001, 0x8000000080008081, 0x8000000000008009]
  ++ [0x000000000000008a, 0x0000000000000088, 0x0000000080008009, 0x000000008000000a]
  ++ [0x000000008000808b, 0x800000000000008b, 0x8000000000008089, 0x8000000000008003]
  ++ [0x8000000000008002, 0x8000000000000080, 0x000000000000800a, 0x800000008000000a]
  ++ [0x8000000080008081, 0x8000000000008080, 0x0000000080000001, 0x8000000080008008]

/-- The 64-bit all-ones mask `0xFFFFFFFFFFFFFFFF`. -/
def mask64 : Nat := 0xFFFFFFFFFFFFFFFF

/-- `_rotl`: rotate a 64-bit integer left by `shift` bits. -/
def rotl (value shift : Nat) : Nat :=
  ((value <<< shift) &&& mask64) ||| (value >>> (64 - shift))

/-- The permutation state: a 5×5 matrix of lanes, indexed `[x][y]`. -/
abbrev KState := List (List Nat)

/-- Read lane `(x, y)` of the state. -/
def lane (s : KState) (x y : Nat) : Nat := (s.getD x []).getD y 0

/-- Functionally update lane `(x, y)` of the state. -/
def setLane (s : KState) (x y v : Nat) : KState :=
  s.set x ((s.getD x []).set y v)

/-- One Keccak-f round: Theta, Rho+Pi, Chi, Iota with round constant `rc`.
Python's `(~b) & c` on masked nonnegative ints equals `(b xor mask64) &&& c`. -/
def keccakRound (s : KState) (rc : Nat) : KState :=
  -- Theta
  let c := (List.range 5).map fun x =>
    lane s x 0 ^^^ lane s x 1 ^^^ lane s x 2 ^^^ lane s x 3 ^^^ lane s x 4
  let d := (List.range 5).map fun x =>
    c.getD ((x + 4) % 5) 0 ^^^ rotl (c.getD ((x + 1) % 5) 0) 1
  let s1 : KState := (List.range 5).map fun x =>
    (List.range 5).map fun y => lane s x y ^^^ d.getD x 0
  -- Rho and Pi: b[y][(2x+3y) % 5] = rotl s1[x][y] (rho x y)
  let b : KState := (List.range 5).foldl (fun acc x =>
    (List.range 5).foldl (fun acc2 y =>
      setLane acc2 y ((2 * x + 3 * y) % 5)
        (rotl (lane s1 x y) ((rhoOffsets.getD x []).getD y 0))) acc)
    (List.replicate 5 (List.replicate 5 0))
  -- Chi
  let s2 : KState := (List.range 5).map fun x =>
    (List.range 5).map fun y =>
      lane b x y ^^^ ((lane b ((x + 1) % 5) y ^^^ mask64) &&& lane b ((x + 2) % 5) y)
  -- Iota
  setLane s2 0 0 (lane s2 0 0 ^^^ rc)

/-- `_keccak_f`: the full 24-round Keccak-f[1600] permutation. -/
def keccakF (s : KState) : KState :=
  roundConstants.foldl keccakRound s

/-- `int.from_bytes(_, "little")` on a byte list. -/
def fromBytesLE (bs : List Nat) : Nat :=
  bs.foldr (fun b acc => b + 256 * acc) 0

/-- `value.to_bytes(k, "little")`: `k` little-endian bytes of `value`. -/
def toBytesLE : Nat → Nat → List Nat
  | 0, _ => []
  | k + 1, v => v % 256 :: toBytesLE k (v / 256)

/-- XOR one 136-byte block into the state: lane `i` (little-endian 8 bytes of
the block) goes to position `(i % 5, i / 5)`. -/
def absorbBlock (s : KState) (block : List Nat) : KState :=
  (List.range 17).foldl (fun acc i =>
    let l := fromBytesLE ((block.drop (8 * i)).take 8)
    setLane acc (i % 5) (i / 5) (lane acc (i % 5) (i / 5) ^^^ l)) s

/-- The absorb loop, structurally recursive on a fuel bound: consume the
padded message 136 bytes at a time, permuting after each block.  Each
iteration strictly shortens the remaining message, so a fuel equal to the
message length can never run out. -/
def absorbAux : Nat → KState → List Nat → KState
  | _, s, [] => s
  | 0, s, _ :: _ => s
  | fuel + 1, s, h :: t =>
      absorbAux fuel (keccakF (absorbBlock s ((h :: t).take 136))) ((h :: t).drop 136)

/-- The absorb loop over the whole padded message. -/
def absorb (s : KState) (padded : List Nat) : KState :=
  absorbAux padded.length s padded

/-- The squeeze phase: read the 17 rate lanes little-endian.  The source's
`while len(output) < 32` loop runs exactly once (one pass yields 136 ≥ 32
bytes and then breaks), so it is embedded as a single pass. -/
def squeeze (s : KState) : List Nat :=
  (List.range 17).foldl (fun acc i =>
    acc ++ toBytesLE 8 (lane s (i % 5) (i / 5))) []

/-- The all-zero initial sponge state. -/
def initState : KState := List.replicate 5 (List.replicate 5 0)

/-- Shared sponge pipeline: absorb an (already padded) message into a fresh
state and squeeze the first 32 bytes. -/
def sponge (padded : List Nat) : List Nat :=
  (squeeze (absorb initState padded)).take 32

/-- The zero-filling loop of the source's padding, structurally recursive on
a fuel bound: append `0x00` until the buffer length is 135 modulo 136.  At
most 135 zero bytes are ever needed, so a fuel of 136 can never run out. -/
def padZeroAux : Nat → List Nat → List Nat
  | 0, buf => buf
  | fuel + 1, buf =>
      if buf.length % 136 = 135 then buf else padZeroAux fuel (buf ++ [0])

/-- The zero-filling loop of the source's padding. -/
def padZeroLoop (buf : List Nat) : List Nat :=
  padZeroAux 136 buf

/-- The padding of `keccak_256` in `src/identity/keccak.py`: append `0x01`,
then zero bytes until the length is 135 mod 136, then `0x80`. -/
def keccakPad (data : List Nat) : List Nat :=
  padZeroLoop (data ++ [0x01]) ++ [0x80]

/-- `keccak_256` from `src/identity/keccak.py`: the pure-Python Keccak-256. -/
def keccak_256 (data : List Nat) : List Nat :=
  sponge (keccakPad data)

/-- Modelled from the spec: the minimal multi-rate pad10*1 padding of
standard Keccak-256 (domain byte `0x01`), used by the library hash backend
whose code is not in the repository.  With `q` bytes needed to complete the
block, append the single byte `0x81` when `q = 1`, otherwise `0x01`, then
`q - 2` zero bytes, then `0x80`. -/
def keccakSpecPad (m : List Nat) : List Nat :=
  let q := 136 - m.length % 136
  if q = 1 then m ++ [0x81]
  else m ++ [0x01] ++ List.replicate (q - 2) 0 ++ [0x80]

/-- Modelled from the spec: `_keccak_bytes` from
`src/identity/merkle_identity.py` delegates to the pycryptodome backend
(`keccak.new(data=payload, digest_bits=256).digest()`), whose code is not in
the repository; the spec describes it as standard Keccak-256 — the 1088-bit
rate sponge over Keccak-f[1600] with minimal pad10*1 padding. -/
def keccak_bytes (payload : List Nat) : List Nat :=
  sponge (keccakSpecPad payload)

/-! ## Byte-string ordering (Python `bytes` comparison) -/

/-- Python's `<` on `bytes`: strict lexicographic order on unsigned bytes,
with a proper prefix smaller than its extension. -/
def ltBytes : List Nat → List Nat → Bool
  | [], [] => false
  | [], _ :: _ => true
  | _ :: _, [] => false
  | a :: as, b :: bs => if a < b then true else if b < a then false else ltBytes as bs

/-- Python's `<=` on `bytes`: lexicographic order, reflexive. -/
def leBytes : List Nat → List Nat → Bool
  | [], _ => true
  | _ :: _, [] => false
  | a :: as, b :: bs => if a < b then true else if b < a then false else leBytes as bs

/-! ## Identity records (`src/identity/merkle_identity.py`) -/

/-- `IdentityRecord`: the three string fields are Python `str` values,
modelled as lists of Unicode code points (Python strings may contain lone
surrogates, which Lean `Char` cannot represent); `nonce` is a Python `int`. -/
structure IdentityRecord where
  biometric_hash : List Nat
  digital_pubkey : List Nat
  metadata_hash : List Nat
  nonce : Int
  deriving DecidableEq

/-- The lowercase-hex digit character (code point) for a nibble `n < 16`. -/
def hexDigitChar (n : Nat) : Nat :=
  if n < 10 then 48 + n else 87 + n

/-- A `\uXXXX` escape (backslash, `u`, four lowercase hex digits) for a
16-bit value, as produced by `json.dumps` with `ensure_ascii=True`. -/
def uEscape (n : Nat) : List Nat :=
  [92, 117, hexDigitChar (n / 4096 % 16), hexDigitChar (n / 256 % 16),
   hexDigitChar (n / 16 % 16), hexDigitChar (n % 16)]

/-- How `json.dumps` (default `ensure_ascii=True`) renders one character of
a JSON string: short escapes for `"` `\` and the five control characters
with names, `\uXXXX` for other characters outside printable ASCII (a
non-BMP character becomes a UTF-16 surrogate pair of two escapes), and the
character itself otherwise. -/
def jsonEscapeChar (c : Nat) : List Nat :=
  if c = 34 then [92, 34]
  else if c = 92 then [92, 92]
  else if c = 8 then [92, 98]
  else if c = 9 then [92, 116]
  else if c = 10 then [92, 110]
  else if c = 12 then [92, 102]
  else if c = 13 then [92, 114]
  else if 32 ≤ c ∧ c ≤ 126 then [c]
  else if c < 0x10000 then uEscape c
  else uEscape (0xD800 + (c - 0x10000) / 0x400) ++ uEscape (0xDC00 + (c - 0x10000) % 0x400)

/-- A JSON string literal: quote, escaped characters, quote. -/
def jsonString (s : List Nat) : List Nat :=
  34 :: (s.map jsonEscapeChar).flatten ++ [34]

/-- Decimal digits (ASCII code points) of a natural number. -/
def natDecimal (n : Nat) : List Nat :=
  if n < 10 then [48 + n] else natDecimal (n / 10) ++ [48 + n % 10]
  termination_by n
  decreasing_by omega

/-- Decimal rendering of a Python `int` (possibly negative). -/
def intDecimal (i : Int) : List Nat :=
  if i < 0 then 45 :: natDecimal (-i).toNat else natDecimal i.toNat

/-- Code points of the key `"biometric_hash"`. -/
def keyBiometric : List Nat := [98, 105, 111, 109, 101, 116, 114, 105, 99, 95, 104, 97, 115, 104]

/-- Code points of the key `"digital_pubkey"`. -/
def keyPubkey : List Nat := [100, 105, 103, 105, 116, 97, 108, 95, 112, 117, 98, 107, 101, 121]

/-- Code points of the key `"metadata_hash"`. -/
def keyMetadata : List Nat := [109, 101, 116, 97, 100, 97, 116, 97, 95, 104, 97, 115, 104]

/-- Code points of the key `"nonce"`. -/
def keyNonce : List Nat := [110, 111, 110, 99, 101]

/-- The `json.dumps(..., sort_keys=True, separators=(",", ":"))` output for
a record, as code points: keys in lexicographic order (which is the listed
field order), no insignificant whitespace, `nonce` as a bare decimal. -/
def serializeRecord (rec : IdentityRecord) : List Nat :=
  [123] ++ jsonString keyBiometric ++ [58] ++ jsonString rec.biometric_hash
  ++ [44] ++ jsonString keyPubkey ++ [58] ++ jsonString rec.digital_pubkey
  ++ [44] ++ jsonString keyMetadata ++ [58] ++ jsonString rec.metadata_hash
  ++ [44] ++ jsonString keyNonce ++ [58] ++ intDecimal rec.nonce
  ++ [125]

/-- UTF-8 encoding of one code point, or `none` where Python
`str.encode("utf-8")` raises: on lone surrogates (and on values that are not
code points at all). -/
def utf8Char (c : Nat) : Option (List Nat) :=
  if c < 0x80 then some [c]
  else if c < 0x800 then some [0xC0 + c / 64, 0x80 + c % 64]
  else if c < 0x10000 then
    if 0xD800 ≤ c ∧ c ≤ 0xDFFF then none
    else some [0xE0 + c / 4096, 0x80 + c / 64 % 64, 0x80 + c % 64]
  else if c < 0x110000 then
    some [0xF0 + c / 262144, 0x80 + c / 4096 % 64, 0x80 + c / 64 % 64, 0x80 + c % 64]
  else none

/-- Python `str.encode("utf-8")` over a whole string: fails iff some
character fails. -/
def pyUtf8Encode : List Nat → Option (List Nat)
  | [] => some []
  | c :: rest => do
      let b ← utf8Char c
      let r ← pyUtf8Encode rest
      pure (b ++ r)

/-- `IdentityRecord.to_leaf`: serialize, UTF-8 encode (`none` models the
`UnicodeEncodeError` Python would raise there), and hash with the library
Keccak-256 backend. -/
def IdentityRecord.to_leaf (rec : IdentityRecord) : Option (List Nat) :=
  (pyUtf8Encode (serializeRecord rec)).map keccak_bytes

/-! ## Merkle engine (`src/identity/merkle_identity.py`) -/

/-- `_hash_pair`: swap the pair when `left > right` (Python bytes
comparison), then hash the concatenation with the library backend. -/
def hash_pair (left right : List Nat) : List Nat :=
  if ltBytes right left then keccak_bytes (right ++ left)
  else keccak_bytes (left ++ right)

/-- One level of the bottom-up construction: the inner `for i in
range(0, len(level), 2)` loop, pairing `level[i]` with `level[i+1]` when it
exists and with `level[i]` itself otherwise. -/
def pairUp : List (List Nat) → List (List Nat)
  | [] => []
  | [x] => [hash_pair x x]
  | x :: y :: rest => hash_pair x y :: pairUp rest

/-- The next level halves (rounding up): `len(next_level) = ceil(len / 2)`. -/
theorem pairUp_length : ∀ level, (pairUp level).length = (level.length + 1) / 2
  | [] => by simp [pairUp]
  | [x] => by simp [pairUp]
  | x :: y :: rest => by
      simp [pairUp, pairUp_length rest]
      omega

/-- The `while len(level) > 1` loop of `build_merkle_root`, followed by the
final `level[0]` (`headD` with an unreachable default: the loop preserves
nonemptiness, and the empty case is rejected before the loop runs). -/
def rootLoop (level : List (List Nat)) : List Nat :=
  if 1 < level.length then rootLoop (pairUp level) else level.headD []
  termination_by level.length
  decreasing_by simp [pairUp_length]; omega

/-- The sibling recorded at one level of `build_merkle_proof` when the loop
index `i` reaches `idx - (idx % 2)`: the right node for an even `idx` (the
duplicated left node at an odd level end), the left node for an odd `idx`. -/
def levelSibling (level : List (List Nat)) (idx : Nat) : List Nat :=
  let i := idx - idx % 2
  let left := level.getD i []
  let right := if i + 1 < level.length then level.getD (i + 1) [] else left
  if idx % 2 = 0 then right else left

/-- The `while len(level) > 1` loop of `build_merkle_proof`: at each level
append the sibling of the node on the path (the inner loop appends exactly
when some even `i < len(level)` equals `idx - (idx % 2)`), then move to the
parent index `idx / 2` in the paired-up level. -/
def proofLoop (level : List (List Nat)) (idx : Nat) : List (List Nat) :=
  if 1 < level.length then
    (if idx - idx % 2 < level.length then [levelSibling level idx] else [])
      ++ proofLoop (pairUp level) (idx / 2)
  else []
  termination_by level.length
  decreasing_by simp [pairUp_length]; omega

/-- The error taxonomy of the spec: `EmptyInput` and `IndexOutOfRange` are
the `ValueError` and `IndexError` raised by the builders; `InvalidRecord`
stands for an encoding failure escaping `to_leaf`. -/
inductive MerkleError where
  | emptyInput
  | indexOutOfRange
  | invalidRecord
  deriving DecidableEq

/-- Result of an operation that may raise. -/
inductive MerkleResult (α : Type) where
  | ok (val : α)
  | error (err : MerkleError)
  deriving DecidableEq

/-- Sequence a list of options: `none` if any element is `none`, modelling
an exception escaping a list comprehension. -/
def seqOpt {α : Type} : List (Option α) → Option (List α)
  | [] => some []
  | none :: _ => none
  | some x :: rest => (seqOpt rest).map (x :: ·)

/-- `build_merkle_root`: map records to leaves, raise `EmptyInput` on an
empty list, then fold levels bottom-up. -/
def build_merkle_root (records : List IdentityRecord) : MerkleResult (List Nat) :=
  match seqOpt (records.map IdentityRecord.to_leaf) with
  | none => .error .invalidRecord
  | some leaves =>
      if leaves.isEmpty then .error .emptyInput
      else .ok (rootLoop leaves)

/-- `build_merkle_proof`: map records to leaves, raise `EmptyInput` on an
empty list and `IndexOutOfRange` when `index < 0` or `index >= len(leaves)`,
then collect siblings level by level. -/
def build_merkle_proof (records : List IdentityRecord) (index : Int) :
    MerkleResult (List (List Nat)) :=
  match seqOpt (records.map IdentityRecord.to_leaf) with
  | none => .error .invalidRecord
  | some leaves =>
      if leaves.isEmpty then .error .emptyInput
      else if index < 0 ∨ (leaves.length : Int) ≤ index then .error .indexOutOfRange
      else .ok (proofLoop leaves index.toNat)

/-- `verify_merkle_proof`: fold the leaf up through the proof, putting the
lexicographically smaller value first at each step, and compare with the
root.  Total: a malformed proof yields `false`, never an exception. -/
def verify_merkle_proof (proof : List (List Nat)) (root leaf : List Nat) : Bool :=
  (proof.foldl
    (fun computed sibling =>
      if leBytes computed sibling then hash_pair computed sibling
      else hash_pair sibling computed)
    leaf) == root

/-! ## Hex helpers (`src/identity/merkle_identity.py`) -/

/-- `_strip_0x`: drop a leading `"0x"` when present (strings as code
points; `hex_string.startswith("0x")` holds iff the first two characters
are `0` and `x`, and `hex_string[2:]` drops them). -/
def strip_0x (s : List Nat) : List Nat :=
  if s.take 2 = [48, 120] then s.drop 2 else s

/-- `bytes.hex()`: two lowercase hex digits per byte, no prefix. -/
def bytesHex (bs : List Nat) : List Nat :=
  (bs.map fun b => [hexDigitChar (b / 16), hexDigitChar (b % 16)]).flatten

/-- The value of one hex digit character (Python accepts both cases), or
`none` on a non-hex character. -/
def hexVal (c : Nat) : Option Nat :=
  if 48 ≤ c ∧ c ≤ 57 then some (c - 48)
  else if 97 ≤ c ∧ c ≤ 102 then some (c - 87)
  else if 65 ≤ c ∧ c ≤ 70 then some (c - 55)
  else none

/-- `bytes.fromhex`: pairs of hex digits; `none` models the `ValueError`
raised on an odd-length or non-hex string. -/
def bytesFromHex : List Nat → Option (List Nat)
  | [] => some []
  | [_] => none
  | c1 :: c2 :: rest => do
      let hi ← hexVal c1
      let lo ← hexVal c2
      let r ← bytesFromHex rest
      pure ((16 * hi + lo) :: r)

/-- `verify_merkle_proof_hex`: decode every hex input (stripping an optional
`0x` prefix) and verify; `none` models the decoding `ValueError`. -/
def verify_merkle_proof_hex (proof_hex : List (List Nat)) (root_hex leaf_hex : List Nat) :
    Option Bool := do
  let proof ← seqOpt (proof_hex.map fun sibling => bytesFromHex (strip_0x sibling))
  let root ← bytesFromHex (strip_0x root_hex)
  let leaf ← bytesFromHex (strip_0x leaf_hex)
  pure (verify_merkle_proof proof root leaf)

/-! ## Ordering lemmas: Python bytes comparison is a linear order -/

theorem ltBytes_asymm : ∀ {a b : List Nat}, ltBytes a b = true → ltBytes b a = false
  | [], [], h => by simp [ltBytes] at h
  | [], _ :: _, _ => by simp [ltBytes]
  | _ :: _, [], h => by simp [ltBytes] at h
  | a :: as, b :: bs, h => by
      simp only [ltBytes] at h ⊢
      rcases Nat.lt_trichotomy a b with hab | hab | hab
      · rw [if_neg (by omega), if_pos hab]
      · subst hab
        rw [if_neg (by omega), if_neg (by omega)] at h ⊢
        exact ltBytes_asymm h
      · rw [if_neg (by omega), if_pos hab] at h
        simp at h

theorem eq_of_ltBytes_false : ∀ {a b : List Nat},
    ltBytes a b = false → ltBytes b a = false → a = b
  | [], [], _, _ => rfl
  | [], _ :: _, h, _ => by simp [ltBytes] at h
  | _ :: _, [], _, h => by simp [ltBytes] at h
  | a :: as, b :: bs, h1, h2 => by
      simp only [ltBytes] at h1 h2
      rcases Nat.lt_trichotomy a b with hab | hab | hab
      · rw [if_pos hab] at h1
        simp at h1
      · subst hab
        rw [if_neg (by omega), if_neg (by omega)] at h1 h2
        rw [eq_of_ltBytes_false h1 h2]
      · rw [if_pos hab] at h2
        simp at h2

theorem leBytes_eq_not_ltBytes : ∀ (a b : List Nat), leBytes a b = !ltBytes b a
  | [], [] => by simp [leBytes, ltBytes]
  | [], _ :: _ => by simp [leBytes, ltBytes]
  | _ :: _, [] => by simp [leBytes, ltBytes]
  | a :: as, b :: bs => by
      simp only [leBytes, ltBytes]
      rcases Nat.lt_trichotomy a b with hab | hab | hab
      · rw [if_pos hab, if_neg (by omega), if_pos hab]
        rfl
      · subst hab
        rw [if_neg (by omega), if_neg (by omega), if_neg (by omega),
          if_neg (by omega)]
        exact leBytes_eq_not_ltBytes as bs
      · rw [if_neg (by omega), if_pos hab, if_pos hab]
        rfl

/-- `_hash_pair` is symmetric: it sorts its arguments before hashing. -/
theorem hash_pair_comm (a b : List Nat) : hash_pair a b = hash_pair b a := by
  unfold hash_pair
  rcases h1 : ltBytes b a with _ | _
  · rcases h2 : ltBytes a b with _ | _
    · have heq : b = a := eq_of_ltBytes_false h1 h2
      rw [heq]
    · simp [h1, h2]
  · simp [h1, ltBytes_asymm h1]

/-- One step of `verify_merkle_proof` is just `_hash_pair`: the branch on
`computed <= sibling` mirrors the sort `_hash_pair` performs anyway. -/
theorem verifyStep_eq_hash_pair (a b : List Nat) :
    (if leBytes a b then hash_pair a b else hash_pair b a) = hash_pair a b := by
  by_cases h : leBytes a b
  · rw [if_pos h]
  · rw [if_neg h]
    exact hash_pair_comm b a

/-- The fold inside `verify_merkle_proof` is the plain `_hash_pair` fold. -/
theorem verify_fold_eq : ∀ (proof : List (List Nat)) (leaf : List Nat),
    List.foldl
      (fun computed sibling =>
        if leBytes computed sibling then hash_pair computed sibling
        else hash_pair sibling computed)
      leaf proof
    = List.foldl hash_pair leaf proof
  | [], _ => rfl
  | sib :: rest, leaf => by
      simp only [List.foldl_cons, verifyStep_eq_hash_pair]

/-- `verify_merkle_proof` succeeds iff the `_hash_pair` fold of the proof
over the leaf recomputes the root. -/
theorem verify_merkle_proof_iff (proof : List (List Nat)) (root leaf : List Nat) :
    verify_merkle_proof proof root leaf = true ↔
      List.foldl hash_pair leaf proof = root := by
  rw [verify_merkle_proof, verify_fold_eq]
  exact beq_iff_eq

/-! ## The padding loop in closed form -/

theorem padZeroAux_eq : ∀ (fuel : Nat) (buf : List Nat),
    135 - buf.length % 136 ≤ fuel →
    padZeroAux fuel buf = buf ++ List.replicate (135 - buf.length % 136) 0
  | 0, buf, h => by
      have : buf.length % 136 = 135 := by omega
      simp [padZeroAux, this]
  | fuel + 1, buf, h => by
      by_cases hdone : buf.length % 136 = 135
      · simp [padZeroAux, hdone]
      · have hlt : buf.length % 136 < 135 := by
          have := Nat.mod_lt buf.length (by omega : 0 < 136)
          omega
        have hlen : (buf ++ [0]).length % 136 = buf.length % 136 + 1 := by
          simp [List.length_append]
          omega
        have hrec := padZeroAux_eq fuel (buf ++ [0]) (by rw [hlen]; omega)
        rw [padZeroAux, if_neg hdone, hrec, hlen]
        have hrep : (0 : Nat) :: List.replicate (135 - (buf.length % 136 + 1)) 0
            = List.replicate (135 - buf.length % 136) 0 := by
          rw [← List.replicate_succ]
          congr 1
          omega
        simp only [List.append_assoc, List.singleton_append, hrep]

/-- The source's padding in closed form: `0x01`, then exactly
`135 - (len + 1) % 136` zero bytes, then `0x80`. -/
theorem keccakPad_eq (data : List Nat) :
    keccakPad data
      = data ++ [1] ++ List.replicate (135 - (data.length + 1) % 136) 0 ++ [128] := by
  rw [keccakPad, padZeroLoop, padZeroAux_eq 136 (data ++ [1]) (by omega)]
  simp [List.length_append]

theorem keccakPad_length (data : List Nat) :
    (keccakPad data).length
      = data.length + 2 + (135 - (data.length + 1) % 136) := by
  rw [keccakPad_eq]
  simp [List.length_append, List.length_replicate]
  omega

/-! ## The serialized record is pure ASCII, so UTF-8 encoding cannot fail -/

theorem hexDigitChar_lt_128 {n : Nat} (h : n < 16) : hexDigitChar n < 128 := by
  unfold hexDigitChar
  split <;> omega

theorem uEscape_ascii {n : Nat} {c : Nat} (h : c ∈ uEscape n) : c < 128 := by
  simp only [uEscape, List.mem_cons, List.not_mem_nil, or_false] at h
  rcases h with h | h | h | h | h | h
  all_goals first
  | omega
  | (subst h; exact hexDigitChar_lt_128 (Nat.mod_lt _ (by omega)))

theorem jsonEscapeChar_ascii {c x : Nat} (h : x ∈ jsonEscapeChar c) : x < 128 := by
  unfold jsonEscapeChar at h
  repeat' split at h
  all_goals first
    | (simp only [List.mem_cons, List.not_mem_nil, or_false] at h; omega)
    | (exact uEscape_ascii h)
    | (rcases List.mem_append.1 h with h2 | h2 <;> exact uEscape_ascii h2)

theorem jsonString_ascii {s : List Nat} {c : Nat} (h : c ∈ jsonString s) : c < 128 := by
  rw [jsonString] at h
  rcases List.mem_append.1 h with h | h
  · simp only [List.mem_cons] at h
    rcases h with h | h
    · omega
    · obtain ⟨l, hl, hc⟩ := List.mem_flatten.1 h
      obtain ⟨a, _, ha⟩ := List.mem_map.1 hl
      subst ha
      exact jsonEscapeChar_ascii hc
  · simp at h
    omega

theorem natDecimal_digits : ∀ (n : Nat) {c : Nat}, c ∈ natDecimal n → 48 ≤ c ∧ c ≤ 57
  | n, c, h => by
      rw [natDecimal] at h
      split at h
      · simp at h
        omega
      · rw [List.mem_append] at h
        rcases h with h | h
        · exact natDecimal_digits (n / 10) h
        · simp at h
          have := Nat.mod_lt n (show 0 < 10 by omega)
          omega
  termination_by n => n
  decreasing_by
    rename_i hn
    omega

theorem intDecimal_ascii {i : Int} {c : Nat} (h : c ∈ intDecimal i) : c < 128 := by
  unfold intDecimal at h
  split at h
  · rw [List.mem_cons] at h
    rcases h with h | h
    · omega
    · have := natDecimal_digits _ h
      omega
  · have := natDecimal_digits _ h
    omega

/-- ASCII-ness is preserved by concatenation. -/
theorem ascii_append {l1 l2 : List Nat} (h1 : ∀ c ∈ l1, c < 128)
    (h2 : ∀ c ∈ l2, c < 128) : ∀ c ∈ l1 ++ l2, c < 128 := fun c hc =>
  (List.mem_append.1 hc).elim (h1 c) (h2 c)

theorem serializeRecord_ascii (rec : IdentityRecord) :
    ∀ c ∈ serializeRecord rec, c < 128 := by
  unfold serializeRecord
  simp only [List.append_assoc, List.forall_mem_append]
  refine ⟨?_, ?_, ?_, ?_, ?_, ?_, ?_, ?_, ?_, ?_, ?_, ?_, ?_, ?_, ?_, ?_, ?_⟩
  all_goals first
    | exact fun c hc => jsonString_ascii hc
    | exact fun c hc => intDecimal_ascii hc
    | (intro c hc;
       simp only [List.mem_cons, List.not_mem_nil, or_false] at hc;
       omega)

theorem pyUtf8Encode_ascii {s : List Nat} (h : ∀ c ∈ s, c < 128) :
    pyUtf8Encode s = some s := by
  induction s with
  | nil => rfl
  | cons c rest ih =>
      have hc : c < 128 := h c (by simp)
      have hrest : pyUtf8Encode rest = some rest :=
        ih (fun x hx => h x (by simp [hx]))
      have h1 : utf8Char c = some [c] := by
        unfold utf8Char
        rw [if_pos hc]
      simp [pyUtf8Encode, h1, hrest]

/-- The digest of a single record: what `to_leaf` returns when it succeeds. -/
def leafOf (rec : IdentityRecord) : List Nat :=
  keccak_bytes (serializeRecord rec)

/-- `to_leaf` never fails: `json.dumps` with its default `ensure_ascii=True`
escapes every non-ASCII character (lone surrogates included), so the
serialized text is ASCII and `str.encode` cannot raise. -/
theorem to_leaf_eq (rec : IdentityRecord) : rec.to_leaf = some (leafOf rec) := by
  unfold IdentityRecord.to_leaf leafOf
  rw [pyUtf8Encode_ascii (serializeRecord_ascii rec)]
  rfl

/-! ## Every digest is 32 bytes -/

theorem toBytesLE_length : ∀ (k v : Nat), (toBytesLE k v).length = k
  | 0, _ => rfl
  | k + 1, v => by simp [toBytesLE, toBytesLE_length k]

theorem squeeze_length (s : KState) : (squeeze s).length = 136 := by
  have main : ∀ (l : List Nat) (acc : List Nat),
      (l.foldl (fun acc i => acc ++ toBytesLE 8 (lane s (i % 5) (i / 5))) acc).length
        = acc.length + 8 * l.length := by
    intro l
    induction l with
    | nil => simp
    | cons x xs ih =>
        intro acc
        simp [ih, toBytesLE_length, List.length_append]
        omega
  simp [squeeze, main]

theorem sponge_length (padded : List Nat) : (sponge padded).length = 32 := by
  simp [sponge, List.length_take, squeeze_length]

theorem keccak_bytes_length (payload : List Nat) : (keccak_bytes payload).length = 32 :=
  sponge_length _

theorem keccak_256_length (data : List Nat) : (keccak_256 data).length = 32 :=
  sponge_length _

/-! ## Mapping records to leaves never fails -/

theorem seqOpt_to_leaf (records : List IdentityRecord) :
    seqOpt (records.map IdentityRecord.to_leaf) = some (records.map leafOf) := by
  induction records with
  | nil => rfl
  | cons r rest ih =>
      rw [List.map_cons, to_leaf_eq]
      show seqOpt (some (leafOf r) :: rest.map IdentityRecord.to_leaf)
        = some ((r :: rest).map leafOf)
      simp only [seqOpt, ih, List.map_cons]
      rfl

/-! ## The proof/root loops recompute each other -/

theorem levelSibling_shift (x y : List Nat) (rest : List (List Nat)) (k : Nat) :
    levelSibling (x :: y :: rest) (k + 2) = levelSibling rest k := by
  simp only [levelSibling, List.length_cons]
  have h2 : k + 2 - (k + 2) % 2 = (k - k % 2) + 2 := by omega
  have h3 : (k + 2) % 2 = k % 2 := by omega
  rw [h2, h3]
  have e1 : (x :: y :: rest).getD ((k - k % 2) + 2) [] = rest.getD (k - k % 2) [] := rfl
  have e2 : (x :: y :: rest).getD ((k - k % 2) + 2 + 1) []
      = rest.getD ((k - k % 2) + 1) [] := rfl
  rw [e1, e2]
  have h4 : ((k - k % 2) + 2 + 1 < rest.length + 1 + 1) ↔ ((k - k % 2) + 1 < rest.length) := by
    omega
  rw [if_congr h4 rfl rfl]

/-- At any level, hashing the node on the path with the recorded sibling
yields exactly the parent node `pairUp` places at index `idx / 2`. -/
theorem hash_pair_levelSibling : ∀ (level : List (List Nat)) (idx : Nat),
    idx < level.length →
    hash_pair (level.getD idx []) (levelSibling level idx)
      = (pairUp level).getD (idx / 2) []
  | [], _, h => by simp at h
  | [x], idx, h => by
      have hidx : idx = 0 := by
        simp only [List.length_cons, List.length_nil] at h
        omega
      subst hidx
      simp [levelSibling, pairUp]
  | x :: y :: rest, 0, _ => by
      simp [levelSibling, pairUp]
  | x :: y :: rest, 1, _ => by
      simp [levelSibling, pairUp]
      exact hash_pair_comm y x
  | x :: y :: rest, k + 2, h => by
      have h2 : k < rest.length := by
        simp only [List.length_cons] at h
        omega
      rw [levelSibling_shift]
      have e0 : (x :: y :: rest).getD (k + 2) [] = rest.getD k [] := rfl
      have e1 : (k + 2) / 2 = k / 2 + 1 := by omega
      rw [e0, e1]
      show hash_pair (rest.getD k []) (levelSibling rest k) = (pairUp rest).getD (k / 2) []
      exact hash_pair_levelSibling rest k h2

/-- Folding `_hash_pair` over the collected siblings, starting from the node
at a valid index, recomputes the root of the level. -/
theorem foldl_proofLoop (level : List (List Nat)) (idx : Nat) (h : idx < level.length) :
    List.foldl hash_pair (level.getD idx []) (proofLoop level idx) = rootLoop level := by
  by_cases h1 : 1 < level.length
  · have hside : idx - idx % 2 < level.length := by omega
    rw [proofLoop.eq_def, if_pos h1, if_pos hside, rootLoop.eq_def, if_pos h1]
    simp only [List.singleton_append, List.foldl_cons]
    rw [hash_pair_levelSibling level idx h]
    exact foldl_proofLoop (pairUp level) (idx / 2) (by rw [pairUp_length]; omega)
  · rw [proofLoop.eq_def, if_neg h1, rootLoop.eq_def, if_neg h1]
    have hidx : idx = 0 := by omega
    subst hidx
    have hlen : level.length = 1 := by omega
    match level, hlen with
    | [x], _ => rfl
    | [], h0 => simp at h0
    | _ :: _ :: _, h0 => simp at h0
  termination_by level.length
  decreasing_by rw [pairUp_length]; omega

/-! ## The builders on valid input -/

theorem build_merkle_root_eq (records : List IdentityRecord) (h : records ≠ []) :
    build_merkle_root records = .ok (rootLoop (records.map leafOf)) := by
  match records, h with
  | r :: rest, _ =>
      unfold build_merkle_root
      rw [seqOpt_to_leaf]
      rfl

theorem build_merkle_proof_eq (records : List IdentityRecord) (index : Nat)
    (h : index < records.length) :
    build_merkle_proof records (index : Int)
      = .ok (proofLoop (records.map leafOf) index) := by
  match records, h with
  | r :: rest, h =>
      unfold build_merkle_proof
      rw [seqOpt_to_leaf]
      have hcond : ¬ (((index : Nat) : Int) < 0
          ∨ ((((r :: rest).map leafOf).length : Nat) : Int) ≤ ((index : Nat) : Int)) := by
        simp only [List.length_map, List.length_cons]
        simp only [List.length_cons] at h
        omega
      simp only [List.map_cons, List.isEmpty_cons, Bool.false_eq_true, if_false]
      rw [if_neg (by simpa using hcond)]
      simp

/-- A proof for a valid index carries exactly `⌈log2 n⌉` siblings: one per
level of the bottom-up construction. -/
theorem proofLoop_length (level : List (List Nat)) (idx : Nat) (h : idx < level.length) :
    (proofLoop level idx).length = Nat.clog 2 level.length := by
  by_cases h1 : 1 < level.length
  · have hside : idx - idx % 2 < level.length := by omega
    rw [proofLoop.eq_def, if_pos h1, if_pos hside]
    simp only [List.singleton_append, List.length_cons]
    rw [proofLoop_length (pairUp level) (idx / 2) (by rw [pairUp_length]; omega),
      pairUp_length]
    conv_rhs => rw [Nat.clog_of_two_le (by omega : (1 : Nat) < 2)
      (by omega : 2 ≤ level.length)]
    have e : (level.length + 2 - 1) / 2 = (level.length + 1) / 2 := by omega
    rw [e]
  · rw [proofLoop.eq_def, if_neg h1]
    simp only [List.length_nil]
    have h0 : level.length = 0 ∨ level.length = 1 := by omega
    rcases h0 with h0 | h0 <;> rw [h0]
    · rw [Nat.clog_zero_right]
    · rw [Nat.clog_one_right]
  termination_by level.length
  decreasing_by rw [pairUp_length]; omega

/-- `build_merkle_proof` on a non-empty record list, fully computed. -/
theorem build_merkle_proof_cons_eq (r : IdentityRecord) (rest : List IdentityRecord)
    (index : Int) :
    build_merkle_proof (r :: rest) index
      = if index < 0 ∨ (((r :: rest).length : Nat) : Int) ≤ index
        then .error .indexOutOfRange
        else .ok (proofLoop ((r :: rest).map leafOf) index.toNat) := by
  unfold build_merkle_proof
  rw [seqOpt_to_leaf]
  simp only [List.map_cons, List.isEmpty_cons, Bool.false_eq_true, if_false,
    List.length_cons, List.length_map]

/-! ## Hex encoding round-trips -/

theorem hexDigitChar_range {n : Nat} (h : n < 16) :
    (48 ≤ hexDigitChar n ∧ hexDigitChar n ≤ 57) ∨
    (97 ≤ hexDigitChar n ∧ hexDigitChar n ≤ 102) := by
  unfold hexDigitChar
  split <;> omega

theorem hexVal_hexDigitChar {n : Nat} (h : n < 16) : hexVal (hexDigitChar n) = some n := by
  unfold hexVal hexDigitChar
  split_ifs <;> first
    | (simp only [Option.some.injEq]; omega)
    | (exfalso; omega)

theorem bytesHex_cons (b : Nat) (rest : List Nat) :
    bytesHex (b :: rest) = hexDigitChar (b / 16) :: hexDigitChar (b % 16) :: bytesHex rest :=
  rfl

theorem bytesFromHex_bytesHex {x : List Nat} (hx : ∀ b ∈ x, b < 256) :
    bytesFromHex (bytesHex x) = some x := by
  induction x with
  | nil => rfl
  | cons b rest ih =>
      have hb : b < 256 := hx b (by simp)
      rw [bytesHex_cons]
      simp only [bytesFromHex]
      rw [hexVal_hexDigitChar (by omega : b / 16 < 16),
        hexVal_hexDigitChar (by omega : b % 16 < 16),
        ih (fun y hy => hx y (by simp [hy]))]
      simp only [Option.bind_eq_bind, Option.some_bind, Option.pure_def,
        Option.some.injEq, List.cons.injEq]
      exact ⟨by omega, trivial⟩

theorem bytesHex_lower {x : List Nat} (hx : ∀ b ∈ x, b < 256) {c : Nat}
    (h : c ∈ bytesHex x) :
    (48 ≤ c ∧ c ≤ 57) ∨ (97 ≤ c ∧ c ≤ 102) := by
  induction x with
  | nil => simp [bytesHex] at h
  | cons b rest ih =>
      have hb : b < 256 := hx b (by simp)
      rw [bytesHex_cons] at h
      simp only [List.mem_cons] at h
      rcases h with h | h | h
      · subst h
        exact hexDigitChar_range (by omega)
      · subst h
        exact hexDigitChar_range (by omega)
      · exact ih (fun y hy => hx y (by simp [hy])) h

/-- The canonical hex output never carries a `0x` prefix: `x` is not a hex
digit, so `_strip_0x` leaves encoder output untouched. -/
theorem strip_0x_bytesHex (x : List Nat) : strip_0x (bytesHex x) = bytesHex x := by
  cases x with
  | nil => rfl
  | cons b rest =>
      have hrange := hexDigitChar_range (show b % 16 < 16 by omega)
      rw [bytesHex_cons]
      unfold strip_0x
      rw [if_neg]
      intro e
      have htake : (hexDigitChar (b / 16) :: hexDigitChar (b % 16) :: bytesHex rest).take 2
          = [hexDigitChar (b / 16), hexDigitChar (b % 16)] := rfl
      rw [htake] at e
      injection e with h1 e
      injection e with h2 _
      omega

/-- `_strip_0x` removes an explicit `0x` prefix. -/
theorem strip_0x_prefixed (s : List Nat) : strip_0x (48 :: 120 :: s) = s := rfl

theorem seqOpt_fromhex_map {p : List (List Nat)}
    (hp : ∀ y ∈ p, ∀ b ∈ y, b < 256) :
    seqOpt ((p.map bytesHex).map fun s => bytesFromHex (strip_0x s)) = some p := by
  induction p with
  | nil => rfl
  | cons y rest ih =>
      simp only [List.map_cons]
      rw [strip_0x_bytesHex y, bytesFromHex_bytesHex (hp y (by simp))]
      simp only [seqOpt, ih (fun z hz => hp z (by simp [hz]))]
      rfl

theorem seqOpt_fromhex_map_prefixed {p : List (List Nat)}
    (hp : ∀ y ∈ p, ∀ b ∈ y, b < 256) :
    seqOpt ((p.map fun y => 48 :: 120 :: bytesHex y).map
        fun s => bytesFromHex (strip_0x s)) = some p := by
  induction p with
  | nil => rfl
  | cons y rest ih =>
      simp only [List.map_cons]
      rw [strip_0x_prefixed, bytesFromHex_bytesHex (hp y (by simp))]
      simp only [seqOpt, ih (fun z hz => hp z (by simp [hz]))]
      rfl

/-! ## Claim theorems -/

/-- A concrete record used by the witnesses. -/
def sampleRecord : IdentityRecord := ⟨[], [], [], 0⟩

/-- C1: For every non-empty ordered sequence of identity records and every
index in `[0, len(records))`, verifying the generated inclusion proof
against the built root and the record's leaf succeeds:
`verify_merkle_proof(build_merkle_proof(records, index),
build_merkle_root(records), records[index].to_leaf())` returns true. -/
theorem merkle_proof_roundtrip (records : List IdentityRecord) (d : IdentityRecord)
    (index : Nat) (h : index < records.length) :
    ∃ p r leaf,
      build_merkle_proof records ((index : Nat) : Int) = .ok p ∧
      build_merkle_root records = .ok r ∧
      (records.getD index d).to_leaf = some leaf ∧
      verify_merkle_proof p r leaf = true := by
  have hne : records ≠ [] := by
    intro e
    subst e
    simp at h
  refine ⟨_, _, _, build_merkle_proof_eq records index h,
    build_merkle_root_eq records hne, to_leaf_eq _, ?_⟩
  rw [verify_merkle_proof_iff]
  have hlen : index < (records.map leafOf).length := by
    rw [List.length_map]
    exact h
  have e : (records.map leafOf).getD index [] = leafOf (records.getD index d) := by
    rw [List.getD_eq_getElem _ _ hlen, List.getD_eq_getElem _ _ h, List.getElem_map]
  rw [← e]
  exact foldl_proofLoop (records.map leafOf) index hlen

/-- Witness for C1: the round trip at a concrete one-record list, index 0. -/
theorem merkle_proof_roundtrip_witness :
    ∃ p r leaf,
      build_merkle_proof [sampleRecord] ((0 : Nat) : Int) = .ok p ∧
      build_merkle_root [sampleRecord] = .ok r ∧
      (([sampleRecord] : List IdentityRecord).getD 0 sampleRecord).to_leaf = some leaf ∧
      verify_merkle_proof p r leaf = true :=
  merkle_proof_roundtrip [sampleRecord] sampleRecord 0 (by decide)

/-- C4: `keccak_256` pads by appending `0x01`, then zero bytes until the
buffer length mod 136 equals 135, then `0x80`; the padded length is a
positive multiple of 136; padding always adds at least two bytes; and when
the buffer already sits at 135 mod 136 right after the `0x01`, the very
next byte appended is `0x80`. -/
theorem keccak_pad_spec (data : List Nat) :
    keccakPad data
        = data ++ [1] ++ List.replicate (135 - (data.length + 1) % 136) 0 ++ [128] ∧
      (keccakPad data).length % 136 = 0 ∧
      0 < (keccakPad data).length ∧
      data.length + 2 ≤ (keccakPad data).length ∧
      ((data.length + 1) % 136 = 135 → keccakPad data = data ++ [1, 128]) := by
  have hpad := keccakPad_eq data
  have hlen := keccakPad_length data
  refine ⟨hpad, ?_, ?_, ?_, ?_⟩
  · rw [hlen]
    omega
  · rw [hlen]
    omega
  · rw [hlen]
    omega
  · intro h135
    rw [hpad, h135]
    simp

/-- Witness for C4, at an input sitting exactly at 135 mod 136 after the
domain byte: the padding is the two bytes `0x01 0x80` and nothing else. -/
theorem keccak_pad_spec_witness :
    (List.replicate 134 (0 : Nat)).length + 2
        ≤ (keccakPad (List.replicate 134 0)).length ∧
      keccakPad (List.replicate 134 0) = List.replicate 134 0 ++ [1, 128] :=
  ⟨(keccak_pad_spec (List.replicate 134 0)).2.2.2.1,
   (keccak_pad_spec (List.replicate 134 0)).2.2.2.2 (by simp)⟩

/-- C5: for a non-empty record list and a valid index, the generated proof
holds exactly `⌈log2 n⌉` sibling digests (`Nat.clog 2 n`): two siblings for
a 3-record tree, zero for a 1-record tree. -/
theorem merkle_proof_length_clog (records : List IdentityRecord) (index : Nat)
    (h : index < records.length) :
    ∃ p, build_merkle_proof records ((index : Nat) : Int) = .ok p ∧
      p.length = Nat.clog 2 records.length :=
  ⟨_, build_merkle_proof_eq records index h, by
    rw [proofLoop_length _ _ (by rw [List.length_map]; exact h), List.length_map]⟩

/-- Witness for C5: the one-record tree yields the empty proof,
`⌈log2 1⌉ = 0` siblings. -/
theorem merkle_proof_length_clog_witness :
    ∃ p, build_merkle_proof [sampleRecord] ((0 : Nat) : Int) = .ok p ∧
      p.length = Nat.clog 2 ([sampleRecord] : List IdentityRecord).length :=
  merkle_proof_length_clog [sampleRecord] 0 (by decide)

/-- C6: `build_merkle_root` and `build_merkle_proof` fail with `EmptyInput`
exactly on zero records; `build_merkle_proof` fails with `IndexOutOfRange`
exactly when the records are non-empty and the index is negative or at
least `len(records)`; on all other inputs both succeed. -/
theorem merkle_builders_errors (records : List IdentityRecord) (index : Int) :
    (build_merkle_root records = .error .emptyInput ↔ records = []) ∧
    (build_merkle_proof records index = .error .emptyInput ↔ records = []) ∧
    (build_merkle_proof records index = .error .indexOutOfRange
      ↔ records ≠ [] ∧ (index < 0 ∨ (records.length : Int) ≤ index)) ∧
    (records ≠ [] → ∃ r, build_merkle_root records = .ok r) ∧
    (records ≠ [] → 0 ≤ index → index < (records.length : Int) →
      ∃ p, build_merkle_proof records index = .ok p) := by
  cases records with
  | nil =>
      refine ⟨?_, ?_, ?_, ?_, ?_⟩
      · simp [show build_merkle_root [] = .error .emptyInput from rfl]
      · simp [show build_merkle_proof [] index = .error .emptyInput from rfl]
      · simp [show build_merkle_proof [] index = .error .emptyInput from rfl]
      · intro h
        simp at h
      · intro h
        simp at h
  | cons r rest =>
      have hne : (r :: rest) ≠ [] := by simp
      have hroot := build_merkle_root_eq (r :: rest) hne
      have hproof := build_merkle_proof_cons_eq r rest index
      refine ⟨?_, ?_, ?_, fun _ => ⟨_, hroot⟩, ?_⟩
      · rw [hroot]
        simp
      · rw [hproof]
        by_cases hc : index < 0 ∨ (((r :: rest).length : Nat) : Int) ≤ index
        · rw [if_pos hc]
          simp
        · rw [if_neg hc]
          simp
      · rw [hproof]
        by_cases hc : index < 0 ∨ (((r :: rest).length : Nat) : Int) ≤ index
        · rw [if_pos hc]
          constructor
          · exact fun _ => ⟨hne, hc⟩
          · intro _
            rfl
        · rw [if_neg hc]
          constructor
          · intro e
            simp at e
          · intro hrx
            exact absurd hrx.2 hc
      · intro _ h0 hlt
        rw [hproof, if_neg (by omega)]
        exact ⟨_, rfl⟩

/-- Witness for C6 at a concrete one-record list and the out-of-range
index 5. -/
theorem merkle_builders_errors_witness :
    (build_merkle_root [sampleRecord] = .error .emptyInput
        ↔ ([sampleRecord] : List IdentityRecord) = []) ∧
    (build_merkle_proof [sampleRecord] 5 = .error .emptyInput
        ↔ ([sampleRecord] : List IdentityRecord) = []) ∧
    (build_merkle_proof [sampleRecord] 5 = .error .indexOutOfRange
        ↔ ([sampleRecord] : List IdentityRecord) ≠ []
          ∧ ((5 : Int) < 0 ∨ (([sampleRecord] : List IdentityRecord).length : Int) ≤ 5)) ∧
    (([sampleRecord] : List IdentityRecord) ≠ []
      → ∃ r, build_merkle_root [sampleRecord] = .ok r) ∧
    (([sampleRecord] : List IdentityRecord) ≠ [] → (0 : Int) ≤ 5
      → (5 : Int) < (([sampleRecord] : List IdentityRecord).length : Int)
      → ∃ p, build_merkle_proof [sampleRecord] 5 = .ok p) :=
  merkle_builders_errors [sampleRecord] 5

/-- C7: `verify_merkle_proof` is a total boolean function (it is defined for
every proof, root and leaf, and never raises): it folds the leaf upward
through the proof with `_hash_pair`, which hashes the lexicographically
smaller operand first, and returns true iff the recomputed value equals the
root. -/
theorem verify_merkle_proof_pure_fold (proof : List (List Nat))
    (root leaf a b : List Nat) :
    (verify_merkle_proof proof root leaf = true
      ↔ List.foldl hash_pair leaf proof = root) ∧
    hash_pair a b
      = (if leBytes a b then keccak_bytes (a ++ b) else keccak_bytes (b ++ a)) := by
  refine ⟨verify_merkle_proof_iff proof root leaf, ?_⟩
  rcases h : ltBytes b a with _ | _ <;>
    simp [hash_pair, leBytes_eq_not_ltBytes, h]

/-- C8 counterexample: a lone surrogate (U+D800) in a string field is not
representable in UTF-8 (`pyUtf8Encode` fails on it), yet `to_leaf` of such a
record succeeds — `json.dumps` escapes it as `\ud800` before encoding, so
the claimed `InvalidRecord` failure never happens. -/
theorem to_leaf_surrogate_succeeds :
    pyUtf8Encode [0xD800] = none ∧
    (IdentityRecord.to_leaf ⟨[0xD800], [], [], 0⟩).isSome = true := by
  constructor
  · rfl
  · rw [to_leaf_eq]
    rfl

/-- C8 as amended: `to_leaf` never fails — for every record, string fields
with arbitrary code points (lone surrogates included) are escaped to ASCII
by serialization, and `to_leaf` returns a 32-byte digest. -/
theorem to_leaf_total_32 (rec : IdentityRecord) :
    ∃ l, rec.to_leaf = some l ∧ l.length = 32 :=
  ⟨leafOf rec, to_leaf_eq rec, keccak_bytes_length _⟩

/-- C9: hex encoding of 32-byte digests is lossless (decode after encode is
the identity), the encoding uses lowercase hex digits only and carries no
`0x` prefix, and the hex verification helper accepts input with or without
a `0x` prefix, agreeing with byte-level `verify_merkle_proof` on the
decoded values. -/
theorem hex_roundtrip_lossless (x : List Nat) (p : List (List Nat)) (r l : List Nat)
    (hx : ∀ b ∈ x, b < 256) (hxlen : x.length = 32)
    (hp : ∀ y ∈ p, ∀ b ∈ y, b < 256)
    (hr : ∀ b ∈ r, b < 256) (hl : ∀ b ∈ l, b < 256) :
    bytesFromHex (bytesHex x) = some x ∧
    (∀ c ∈ bytesHex x, (48 ≤ c ∧ c ≤ 57) ∨ (97 ≤ c ∧ c ≤ 102)) ∧
    strip_0x (bytesHex x) = bytesHex x ∧
    verify_merkle_proof_hex (p.map bytesHex) (bytesHex r) (bytesHex l)
      = some (verify_merkle_proof p r l) ∧
    verify_merkle_proof_hex (p.map fun y => 48 :: 120 :: bytesHex y)
        (48 :: 120 :: bytesHex r) (48 :: 120 :: bytesHex l)
      = some (verify_merkle_proof p r l) := by
  refine ⟨bytesFromHex_bytesHex hx, fun c hc => bytesHex_lower hx hc,
    strip_0x_bytesHex x, ?_, ?_⟩
  · unfold verify_merkle_proof_hex
    rw [seqOpt_fromhex_map hp, strip_0x_bytesHex r, bytesFromHex_bytesHex hr,
      strip_0x_bytesHex l, bytesFromHex_bytesHex hl]
    rfl
  · unfold verify_merkle_proof_hex
    rw [seqOpt_fromhex_map_prefixed hp, strip_0x_prefixed, bytesFromHex_bytesHex hr,
      strip_0x_prefixed, bytesFromHex_bytesHex hl]
    rfl

/-- Witness for C9 at the all-zero 32-byte digest, an empty proof and
all-zero root and leaf. -/
theorem hex_roundtrip_lossless_witness :
    bytesFromHex (bytesHex (List.replicate 32 0)) = some (List.replicate 32 0) ∧
    (∀ c ∈ bytesHex (List.replicate 32 0),
      (48 ≤ c ∧ c ≤ 57) ∨ (97 ≤ c ∧ c ≤ 102)) ∧
    strip_0x (bytesHex (List.replicate 32 0)) = bytesHex (List.replicate 32 0) ∧
    verify_merkle_proof_hex (([] : List (List Nat)).map bytesHex)
        (bytesHex (List.replicate 32 0)) (bytesHex (List.replicate 32 0))
      = some (verify_merkle_proof [] (List.replicate 32 0) (List.replicate 32 0)) ∧
    verify_merkle_proof_hex
        (([] : List (List Nat)).map fun y => 48 :: 120 :: bytesHex y)
        (48 :: 120 :: bytesHex (List.replicate 32 0))
        (48 :: 120 :: bytesHex (List.replicate 32 0))
      = some (verify_merkle_proof [] (List.replicate 32 0) (List.replicate 32 0)) :=
  hex_roundtrip_lossless (List.replicate 32 0) [] (List.replicate 32 0)
    (List.replicate 32 0) (by decide) (by decide) (by decide) (by decide) (by decide)

/-- C10: a single-record tree's root is exactly that record's leaf, its
proof at index 0 is empty, and verifying an empty proof succeeds iff the
leaf equals the root. -/
theorem single_record_tree (r : IdentityRecord) (root leaf : List Nat) :
    (∃ l, r.to_leaf = some l ∧ build_merkle_root [r] = .ok l) ∧
    build_merkle_proof [r] 0 = .ok [] ∧
    (verify_merkle_proof [] root leaf = true ↔ leaf = root) := by
  refine ⟨⟨leafOf r, to_leaf_eq r, ?_⟩, ?_, ?_⟩
  · rw [build_merkle_root_eq [r] (by simp)]
    have e : rootLoop [leafOf r] = leafOf r := by
      rw [rootLoop.eq_def]
      simp
    simp only [List.map_cons, List.map_nil, e]
  · rw [show (0 : Int) = ((0 : Nat) : Int) from rfl,
      build_merkle_proof_eq [r] 0 (by simp)]
    have e : proofLoop [leafOf r] 0 = [] := by
      rw [proofLoop.eq_def]
      simp
    simp only [List.map_cons, List.map_nil, e]
  · rw [verify_merkle_proof_iff]
    simp only [List.foldl_nil]

set_option maxRecDepth 40000 in
/-- C2: `keccak_256` of the three-byte ASCII input `"abc"` is the published
Keccak-256 reference digest
`4e03657aea45a94fc7d47ba826c8d667c0d1e6e33a64a036ec44f58fa12d6c45`. -/
theorem keccak_256_abc_vector :
    keccak_256 [97, 98, 99]
      = [0x4e, 0x03, 0x65, 0x7a, 0xea, 0x45, 0xa9, 0x4f, 0xc7, 0xd4, 0x7b, 0xa8,
         0x26, 0xc8, 0xd6, 0x67, 0xc0, 0xd1, 0xe6, 0xe3, 0x3a, 0x64, 0xa0, 0x36,
         0xec, 0x44, 0xf5, 0x8f, 0xa1, 0x2d, 0x6c, 0x45] := by
  decide

set_option maxRecDepth 200000 in
/-- C3 refuted at a concrete input: on the 135-byte zero message the
pure-Python `keccak_256` (which pads with a full extra block
`0x01, 135 × 0x00, 0x80`) and the standard library backend (minimal
pad10*1, here the single byte `0x81`) produce different digests. -/
theorem keccak_256_ne_backend_at_135 :
    keccak_256 (List.replicate 135 0) ≠ keccak_bytes (List.replicate 135 0) := by
  decide

end SuperKernel
